import Mathlib

/-!
Shallow embedding of `src/src/lib/src/blockify.rs` from the
`pack-release-builder` repository.

Modelling conventions:

* `f64` values flowing through the program (Lab coordinates, DE2000
  distances, distinctness scores) are modelled as exact rationals `ℚ`.
  The claims under study depend only on equality/order comparisons of
  these values, never on floating-point rounding.
* The external crates `deltae` (the DE2000 distance) and `lab`
  (RGB → Lab conversion) are not part of this repository; they enter the
  embedding as explicit function parameters `d : LabValue → LabValue → ℚ`
  (for `DeltaE::new(a, b, DE2000).value()`) and
  `rl : Nat → Nat → Nat → LabValue` (for `lab::rgbs_to_labs` on one RGB
  triple).  Concrete instantiations used by witnesses are defined below
  (`d_abs`, `rl_id`).
* Rust panics (index out of bounds, ...) are modelled as `none` /
  `GCMResult.panic` — the function aborts and returns no value.
* `Vec::sort_by` with the `compare` helper of the source is a stable
  sort with respect to the total preorder `a.0 <= b.0`; over a total
  preorder the stable sort result is unique, so it is modelled by the
  stable `List.insertionSort` (the source's merge sort is also stable).
* `Vec::dedup` removes only consecutive equal elements; it is modelled
  by `dedup_consec` below.
* Thread scheduling only affects the order in which per-item results are
  appended to mutex-guarded accumulators; every claim studied here is
  insensitive to that order, and list-level functions use input order.
-/

attribute [local semireducible] Rat.add Rat.mul Rat.sub Rat.inv

set_option maxRecDepth 200000

/-- An 8-bit RGBA pixel (`image::Rgba<u8>`); channels kept as naturals. -/
structure Rgba where
  r : Nat
  g : Nat
  b : Nat
  a : Nat
  deriving DecidableEq

/-- `deltae::LabValue` — a Lab color; coordinates modelled as rationals. -/
structure LabValue where
  l : ℚ
  a : ℚ
  b : ℚ
  deriving DecidableEq

/-- `type Pixel = (f64, Rgba<u8>, LabValue)` — one distinctness entry. -/
abbrev Pixel := ℚ × Rgba × LabValue

/-- `type Block = (String, Vec<Pixel>)` — one candidate block signature. -/
abbrev Block := String × List Pixel

/-- An in-memory RGBA image: dimensions plus a pixel lookup function. -/
structure Image where
  width : Nat
  height : Nat
  pix : Nat → Nat → Rgba

/-- The row-major pixel enumeration `(x, y, color)` produced by
`img.pixels()` of the `image` crate. -/
def Image.pixelList (img : Image) : List (Nat × Nat × Rgba) :=
  (List.range img.height).flatMap
    (fun y => (List.range img.width).map (fun x => (x, y, img.pix x y)))

/-- `fn get_lab(pixel: (u32, u32, Rgba<u8>)) -> LabValue` — converts the
RGB part of a pixel (alpha ignored) via the `lab` crate, here the
parameter `rl`. -/
def get_lab (rl : Nat → Nat → Nat → LabValue) (p : Rgba) : LabValue :=
  rl p.r p.g p.b

/-- Byte-lexicographic comparison of character lists (Rust `String`
ordering; UTF-8 byte order coincides with code-point order). -/
def chars_le : List Char → List Char → Bool
  | [], _ => true
  | _ :: _, [] => false
  | a :: as, b :: bs => if a < b then true else if b < a then false else chars_le as bs

/-- Rust `String` ordering on paths. -/
def path_le (a b : String) : Bool :=
  chars_le a.data b.data

/-- The sort key of `distances.sort_by(|a, b| compare(&a.0, &b.0))`:
ascending distinctness score. -/
def score_le (a b : Pixel) : Prop := a.1 ≤ b.1

instance : DecidableRel score_le := fun a b => inferInstanceAs (Decidable (a.1 ≤ b.1))

instance : IsTotal Pixel score_le := ⟨fun a b => le_total a.1 b.1⟩

instance : IsTrans Pixel score_le := ⟨fun _ _ _ h h2 => le_trans h h2⟩

/-- `Vec::dedup` tail loop: `a` is the last kept element. -/
def dedup_run {α : Type} [DecidableEq α] (a : α) : List α → List α
  | [] => [a]
  | b :: rest => if a = b then dedup_run a rest else a :: dedup_run b rest

/-- `Vec::dedup`: remove *consecutive* equal elements, keeping the first
of each run. -/
def dedup_consec {α : Type} [DecidableEq α] : List α → List α
  | [] => []
  | a :: rest => dedup_run a rest

/-- The inner loop of `get_average_colors`: accumulate
`distance += DeltaE::new(lab, sub_lab, DE2000)` over every `sub_pixel`,
aborting the whole image (`return`, modelled as `none`) as soon as a
sub-pixel with alpha < 255 is seen. -/
def inner_loop (d : LabValue → LabValue → ℚ) (rl : Nat → Nat → Nat → LabValue)
    (lab : LabValue) (acc : ℚ) : List (Nat × Nat × Rgba) → Option ℚ
  | [] => some acc
  | q :: rest =>
    if q.2.2.a < 255 then none
    else inner_loop d rl lab (acc + d lab (get_lab rl q.2.2)) rest

/-- The outer loop of `get_average_colors`: build the `distances` vector,
one `(score, color, lab)` entry per pixel, dividing each accumulated
distance by `pixel_count`. -/
def outer_loop (d : LabValue → LabValue → ℚ) (rl : Nat → Nat → Nat → LabValue)
    (pixel_count : ℚ) (all : List (Nat × Nat × Rgba)) :
    List (Nat × Nat × Rgba) → Option (List Pixel)
  | [] => some []
  | p :: rest =>
    match inner_loop d rl (get_lab rl p.2.2) 0 all with
    | none => none
    | some dist =>
      Option.map (fun l => (dist / pixel_count, p.2.2, get_lab rl p.2.2) :: l)
        (outer_loop d rl pixel_count all rest)

/-- The per-candidate closure body of `get_average_colors`: reject images
that are not 16×16, score every pixel, abort on any non-opaque pixel,
sort ascending by score, dedup consecutive equal entries, and emit the
signature only when the result is non-empty. -/
def get_average_colors_one (d : LabValue → LabValue → ℚ)
    (rl : Nat → Nat → Nat → LabValue) (image : String) (img : Image) :
    Option Block :=
  if img.width ≠ 16 ∨ img.height ≠ 16 then none
  else
    match outer_loop d rl ((img.width * img.height : Nat) : ℚ) img.pixelList img.pixelList with
    | none => none
    | some distances =>
      match dedup_consec (List.insertionSort score_le distances) with
      | [] => none
      | e :: es => some (image, e :: es)

/-- `fn get_average_colors(blocks: Vec<String>) -> Vec<Block>`: the
palette, one optional signature per candidate path.  The mutex-guarded
push order is scheduler dependent; input order is used here (no claim
depends on palette order). -/
def get_average_colors (d : LabValue → LabValue → ℚ)
    (rl : Nat → Nat → Nat → LabValue) (load : String → Image)
    (blocks : List String) : List Block :=
  blocks.filterMap (fun b => get_average_colors_one d rl b (load b))

/-- The sort key of `new_blocks.sort_by(|a, b| compare(&a.0, &b.0))` in
`get_closest_match`: ascending distance to the query color. -/
def dist_le (a b : ℚ × Block) : Prop := a.1 ≤ b.1

instance : DecidableRel dist_le := fun a b => inferInstanceAs (Decidable (a.1 ≤ b.1))

instance : IsTotal (ℚ × Block) dist_le := ⟨fun a b => le_total a.1 b.1⟩

instance : IsTrans (ℚ × Block) dist_le := ⟨fun _ _ _ h h2 => le_trans h h2⟩

/-- The sort key of `matches.sort_by_key(|k| k.1 .0.to_string())`:
lexicographic file-path order. -/
def path_ord (a b : ℚ × Block) : Prop := path_le a.2.1 b.2.1 = true

instance : DecidableRel path_ord := fun a b => inferInstanceAs (Decidable (_ = true))

/-- Result of one `get_closest_match` call.  `panic` models a Rust panic
(an out-of-bounds index); `fuelOut` is an artifact of the fuel-indexed
recursion and is never produced with the fuel supplied by
`get_closest_match` (see `gcmF_no_fuelOut`). -/
inductive GCMResult where
  | ok (path : String)
  | panic
  | fuelOut
  deriving DecidableEq

/-- The map building `new_blocks`: pair every candidate with the distance
from the query to its first color entry, `block.1[0].2`.  Indexing `[0]`
of an empty entry vector is a panic, modelled as `none`. -/
def annotate (d : LabValue → LabValue → ℚ) (lab : LabValue) :
    List Block → Option (List (ℚ × Block))
  | [] => some []
  | b :: rest =>
    match b.2 with
    | [] => none
    | e :: _ => Option.map (fun l => (d lab e.2.2, b) :: l) (annotate d lab rest)

/-- `fn get_closest_match(lab: LabValue, blocks: Vec<Block>) -> String`,
fuel-indexed.  Faithful to the source: annotate with distances
(`annotate`), stable-sort ascending by distance, take `new_blocks[0]`
(panic when the palette is empty), collect the candidates whose distance
equals it exactly, and either return the unique match, recurse on the
tied candidates with their first entry dropped (`block.1 .1[1..]`), or
break the final tie by file path. -/
def gcmF (d : LabValue → LabValue → ℚ) : Nat → LabValue → List Block → GCMResult
  | 0, _, _ => .fuelOut
  | fuel + 1, lab, blocks =>
    match annotate d lab blocks with
    | none => .panic
    | some nb0 =>
      match List.insertionSort dist_le nb0 with
      | [] => .panic
      | first :: rest =>
        match (first :: rest).filter (fun item => decide (item.1 = first.1)) with
        | [] => .panic
        | [m] => .ok m.2.1
        | m0 :: m1 :: ms =>
          if (m0 :: m1 :: ms).any (fun block => decide (1 < block.2.2.length)) then
            gcmF d fuel lab ((m0 :: m1 :: ms).map (fun block => (block.2.1, block.2.2.drop 1)))
          else
            match List.insertionSort path_ord (m0 :: m1 :: ms) with
            | [] => .panic
            | m :: _ => .ok m.2.1

/-- Total number of color entries across the palette; used as fuel. -/
def palette_size (blocks : List Block) : Nat :=
  (blocks.map (fun b => b.2.length)).sum

/-- `get_closest_match` with enough fuel for every recursion (each
recursion step strictly shrinks `palette_size`). -/
def get_closest_match (d : LabValue → LabValue → ℚ) (lab : LabValue)
    (blocks : List Block) : GCMResult :=
  gcmF d (palette_size blocks + 1) lab blocks

/-- The tie set of one resolution round: every candidate whose distance
to the query equals the minimal one, `new_blocks[0].0`, exactly. -/
def tie_set (d : LabValue → LabValue → ℚ) (lab : LabValue)
    (blocks : List Block) : List (ℚ × Block) :=
  match annotate d lab blocks with
  | none => []
  | some nb0 =>
    match List.insertionSort dist_le nb0 with
    | [] => []
    | first :: rest => (first :: rest).filter (fun item => decide (item.1 = first.1))

/-- The destination canvas
`ImageBuffer::from_fn(width * 16, height * 16, |_, _| Rgba([0, 0, 0, 0]))`,
modelled as dimensions plus a pixel lookup function. -/
structure Canvas where
  width : Nat
  height : Nat
  pix : Nat → Nat → Rgba

/-- `ImageBuffer::put_pixel`. -/
def put_pixel (c : Canvas) (x y : Nat) (v : Rgba) : Canvas :=
  { c with pix := fun i j => if i = x ∧ j = y then v else c.pix i j }

/-- The inner loop of `blockify_images`: copy every pixel of the resolved
block image into the 16×16 destination region of source pixel `(x, y)`,
keeping the block's RGB but overriding alpha with the source alpha. -/
def copy_block (c : Canvas) (x y alpha : Nat) (block_img : Image) : Canvas :=
  block_img.pixelList.foldl
    (fun acc sp =>
      put_pixel acc (x * 16 + sp.1) (y * 16 + sp.2.1)
        ⟨sp.2.2.r, sp.2.2.g, sp.2.2.b, alpha⟩)
    c

/-- The per-source-pixel loop of `blockify_images`: skip fully
transparent pixels, otherwise resolve the closest block and copy it.  A
resolver panic aborts the image (`none`). -/
def blockify_loop (d : LabValue → LabValue → ℚ) (rl : Nat → Nat → Nat → LabValue)
    (load : String → Image) (blocks : List Block) :
    List (Nat × Nat × Rgba) → Canvas → Option Canvas
  | [], c => some c
  | p :: rest, c =>
    if p.2.2.a = 0 then blockify_loop d rl load blocks rest c
    else
      match get_closest_match d (get_lab rl p.2.2) blocks with
      | .ok selected =>
        blockify_loop d rl load blocks rest (copy_block c p.1 p.2.1 p.2.2.a (load selected))
      | _ => none

/-- The per-target closure body of `blockify_images`: composite one
target image against the shared palette, producing the 16×-scaled
destination canvas that is then saved over the target file. -/
def blockify_image (d : LabValue → LabValue → ℚ) (rl : Nat → Nat → Nat → LabValue)
    (load : String → Image) (blocks : List Block) (img : Image) : Option Canvas :=
  blockify_loop d rl load blocks img.pixelList
    ⟨img.width * 16, img.height * 16, fun _ _ => ⟨0, 0, 0, 0⟩⟩

/-- The `RunningPixelCounter` update performed under the lock after one
image: `*p += u128::from((width * 16) * (height * 16))`. -/
def counter_after (p : Nat) (width height : Nat) : Nat :=
  p + (width * 16) * (height * 16)

/-- Concrete stand-in for the `deltae` crate used by witnesses: a
symmetric distance with `d_abs x x = 0`, like DE2000. -/
def d_abs (x y : LabValue) : ℚ :=
  |x.l - y.l| + |x.a - y.a| + |x.b - y.b|

/-- Concrete stand-in for the `lab` crate used by witnesses. -/
def rl_id (r g b : Nat) : LabValue :=
  ⟨(r : ℚ), (g : ℚ), (b : ℚ)⟩

/-! ## A concrete 16×16 candidate: red/blue column stripes -/

/-- Fully opaque red. -/
def red_px : Rgba := ⟨255, 0, 0, 255⟩

/-- Fully opaque blue. -/
def blue_px : Rgba := ⟨0, 0, 255, 255⟩

/-- A 16×16 candidate image with alternating red/blue columns: 128 red
and 128 blue pixels, alternating in row-major enumeration order. -/
def checker_img : Image :=
  ⟨16, 16, fun x _ => if x % 2 = 0 then red_px else blue_px⟩

/-- The entry list `get_average_colors` computes for `checker_img` under
`d_abs`/`rl_id`: every pixel scores `(128·0 + 128·510)/256 = 255`, so
the stable sort and the consecutive dedup leave the alternating
enumeration untouched. -/
def checker_entries : List Pixel :=
  checker_img.pixelList.map (fun p => ((255 : ℚ), p.2.2, get_lab rl_id p.2.2))

/-- Bool check that no two row-major-adjacent pixels share a color. -/
def adjacent_colors_differ : List (Nat × Nat × Rgba) → Bool
  | [] => true
  | [_] => true
  | p :: q :: rest => (decide (p.2.2 ≠ q.2.2)) && adjacent_colors_differ (q :: rest)


/-- Safety predicate for the recursive tie-break, mirroring the rounds
of `gcmF`: whenever a tie is broken by recursion (some tied candidate
has a further color entry), every tied candidate must still have a
further entry — otherwise the recursive call indexes `[0]` of an emptied
entry vector and panics.  It also rules out an empty palette and
candidates with no entries at all. -/
def tie_rounds_safe (d : LabValue → LabValue → ℚ) : Nat → LabValue → List Block → Bool
  | 0, _, _ => false
  | fuel + 1, lab, blocks =>
    match annotate d lab blocks with
    | none => false
    | some nb0 =>
      match List.insertionSort dist_le nb0 with
      | [] => false
      | first :: rest =>
        match (first :: rest).filter (fun item => decide (item.1 = first.1)) with
        | [] => false
        | [_] => true
        | m0 :: m1 :: ms =>
          if (m0 :: m1 :: ms).any (fun block => decide (1 < block.2.2.length)) then
            (m0 :: m1 :: ms).all (fun block => decide (1 < block.2.2.length)) &&
              tie_rounds_safe d fuel lab
                ((m0 :: m1 :: ms).map (fun block => (block.2.1, block.2.2.drop 1)))
          else true

/-- Lab coordinates of `red_px` under `rl_id`. -/
def lab_red : LabValue := rl_id 255 0 0

/-- Lab coordinates of `blue_px` under `rl_id`. -/
def lab_blue : LabValue := rl_id 0 0 255

/-- C1 counterexample palette: candidate `a` holds the single entry red;
candidate `b` holds first entry red and second entry blue.  Querying red
ties them exactly, and the tie-break recursion empties `a`. -/
def cex_palette : List Block :=
  [("a", [(0, red_px, lab_red)]), ("b", [(0, red_px, lab_red), (1, blue_px, lab_blue)])]

/-- A palette of two distinct single-color candidates (no tie on red). -/
def safe_palette : List Block :=
  [("b", [(0, blue_px, lab_blue)]), ("a", [(0, red_px, lab_red)])]

/-- Two candidates with identical single red entries under different
paths: a total tie, resolved by file-path order. -/
def tie_palette : List Block :=
  [("b", [(0, red_px, lab_red)]), ("a", [(0, red_px, lab_red)])]

/-- A 16×16 image that is uniformly opaque blue. -/
def blue16 : Image := ⟨16, 16, fun _ _ => blue_px⟩

/-- Disk model for the compositing witnesses: every path holds `blue16`. -/
def load_blue (_ : String) : Image := blue16

/-- A 2×1 target image: pixel (0,0) fully transparent, pixel (1,0) of
alpha 200. -/
def target2 : Image :=
  ⟨2, 1, fun x _ => if x = 0 then ⟨0, 0, 0, 0⟩ else ⟨10, 20, 30, 200⟩⟩


/-! ## General list lemmas -/

theorem dedup_run_head {α : Type} [DecidableEq α] (a : α) :
    ∀ l : List α, ∃ t, dedup_run a l = a :: t := by
  intro l
  induction l generalizing a with
  | nil => exact ⟨[], rfl⟩
  | cons b rest ih =>
    by_cases hab : a = b
    · subst hab
      obtain ⟨t, ht⟩ := ih a
      exact ⟨t, by rw [dedup_run, if_pos rfl, ht]⟩
    · exact ⟨dedup_run b rest, by rw [dedup_run, if_neg hab]⟩

theorem dedup_run_of_chain {α : Type} [DecidableEq α] (a : α) :
    ∀ l : List α, List.Chain (fun u v => u ≠ v) a l → dedup_run a l = a :: l := by
  intro l
  induction l generalizing a with
  | nil => intro _; rfl
  | cons b rest ih =>
    intro h
    rcases h with _ | ⟨hab, hb⟩
    simp only [dedup_run, if_neg hab]
    rw [ih b hb]

/-- `Vec::dedup` leaves a list with no two adjacent equal elements
unchanged. -/
theorem dedup_consec_of_chain {α : Type} [DecidableEq α] (l : List α)
    (h : List.Chain' (fun u v => u ≠ v) l) : dedup_consec l = l := by
  cases l with
  | nil => rfl
  | cons a rest => exact dedup_run_of_chain a rest h

theorem dedup_run_sublist {α : Type} [DecidableEq α] (a : α) :
    ∀ l : List α, (dedup_run a l).Sublist (a :: l) := by
  intro l
  induction l generalizing a with
  | nil => simp [dedup_run]
  | cons b rest ih =>
    by_cases hab : a = b
    · subst hab
      simpa [dedup_run] using (ih a).trans ((a :: rest).sublist_cons_self a)
    · simpa [dedup_run, hab] using (ih b).cons₂ a

/-- `Vec::dedup` returns a sublist of its input. -/
theorem dedup_consec_sublist {α : Type} [DecidableEq α] (l : List α) :
    (dedup_consec l).Sublist l := by
  cases l with
  | nil => simp [dedup_consec]
  | cons a rest => exact dedup_run_sublist a rest

theorem dedup_run_chain {α : Type} [DecidableEq α] (a : α) :
    ∀ l : List α, List.Chain' (fun u v => u ≠ v) (dedup_run a l) := by
  intro l
  induction l generalizing a with
  | nil => simp [dedup_run]
  | cons b rest ih =>
    by_cases hab : a = b
    · simpa [dedup_run, hab] using ih b
    · obtain ⟨t, ht⟩ := dedup_run_head b rest
      have := ih b
      simp only [dedup_run, if_neg hab, ht] at this ⊢
      exact List.Chain'.cons hab this

/-- The output of `Vec::dedup` has no two adjacent equal elements. -/
theorem dedup_consec_chain {α : Type} [DecidableEq α] (l : List α) :
    List.Chain' (fun u v => u ≠ v) (dedup_consec l) := by
  cases l with
  | nil => simp [dedup_consec]
  | cons a rest => exact dedup_run_chain a rest

/-! ## Lemmas about the signature builder -/

theorem inner_loop_complete (d : LabValue → LabValue → ℚ) (rl : Nat → Nat → Nat → LabValue)
    (lab : LabValue) :
    ∀ (l : List (Nat × Nat × Rgba)) (acc : ℚ), (∀ q ∈ l, ¬ q.2.2.a < 255) →
      inner_loop d rl lab acc l = some (acc + (l.map (fun q => d lab (get_lab rl q.2.2))).sum) := by
  intro l
  induction l with
  | nil => simp [inner_loop]
  | cons q rest ih =>
    intro acc h
    have hq : ¬ q.2.2.a < 255 := h q (List.mem_cons_self q rest)
    rw [inner_loop, if_neg hq, ih _ (fun x hx => h x (List.mem_cons_of_mem q hx))]
    simp [add_assoc]

theorem inner_loop_none (d : LabValue → LabValue → ℚ) (rl : Nat → Nat → Nat → LabValue)
    (lab : LabValue) :
    ∀ (l : List (Nat × Nat × Rgba)) (acc : ℚ), (∃ q ∈ l, q.2.2.a < 255) →
      inner_loop d rl lab acc l = none := by
  intro l
  induction l with
  | nil => rintro acc ⟨q, hq, _⟩; cases hq
  | cons q rest ih =>
    rintro acc ⟨p, hp, hpa⟩
    rcases List.mem_cons.1 hp with h | h
    · subst h
      simp [inner_loop, hpa]
    · by_cases hq : q.2.2.a < 255
      · simp [inner_loop, hq]
      · rw [inner_loop, if_neg hq, ih _ ⟨p, h, hpa⟩]

theorem outer_loop_complete (d : LabValue → LabValue → ℚ) (rl : Nat → Nat → Nat → LabValue)
    (pc : ℚ) (all : List (Nat × Nat × Rgba)) (hall : ∀ q ∈ all, ¬ q.2.2.a < 255) :
    ∀ l : List (Nat × Nat × Rgba),
      outer_loop d rl pc all l = some (l.map (fun p =>
        (((all.map (fun q => d (get_lab rl p.2.2) (get_lab rl q.2.2))).sum) / pc,
          p.2.2, get_lab rl p.2.2))) := by
  intro l
  induction l with
  | nil => rfl
  | cons p rest ih =>
    rw [outer_loop, inner_loop_complete d rl _ all 0 hall, ih]
    simp

theorem outer_loop_none (d : LabValue → LabValue → ℚ) (rl : Nat → Nat → Nat → LabValue)
    (pc : ℚ) (all : List (Nat × Nat × Rgba)) (hall : ∃ q ∈ all, q.2.2.a < 255) :
    ∀ (l : List (Nat × Nat × Rgba)), l ≠ [] → outer_loop d rl pc all l = none := by
  intro l hl
  cases l with
  | nil => exact absurd rfl hl
  | cons p rest =>
    rw [outer_loop, inner_loop_none d rl _ all 0 hall]

/-- C5: a candidate image whose width or height is not exactly 16 yields
no `BlockSignature` and signals no error: `get_average_colors_one`
returns `none`, silently excluding the candidate from the palette. -/
theorem claim_C5 (d : LabValue → LabValue → ℚ) (rl : Nat → Nat → Nat → LabValue)
    (image : String) (img : Image) (h : img.width ≠ 16 ∨ img.height ≠ 16) :
    get_average_colors_one d rl image img = none := by
  rw [get_average_colors_one, if_pos h]

theorem claim_C5_witness :
    ((⟨17, 16, fun _ _ => ⟨0, 0, 0, 255⟩⟩ : Image).width ≠ 16 ∨
        (⟨17, 16, fun _ _ => ⟨0, 0, 0, 255⟩⟩ : Image).height ≠ 16) ∧
      get_average_colors_one d_abs rl_id "c5" ⟨17, 16, fun _ _ => ⟨0, 0, 0, 255⟩⟩ = none :=
  ⟨by decide, claim_C5 d_abs rl_id "c5" ⟨17, 16, fun _ _ => ⟨0, 0, 0, 255⟩⟩ (by decide)⟩

/-- C4: a candidate image with any pixel of alpha < 255 yields no
`BlockSignature`: `get_average_colors_one` returns `none`, so the image
contributes nothing to the palette. -/
theorem claim_C4 (d : LabValue → LabValue → ℚ) (rl : Nat → Nat → Nat → LabValue)
    (image : String) (img : Image) (h : ∃ e ∈ img.pixelList, e.2.2.a < 255) :
    get_average_colors_one d rl image img = none := by
  rw [get_average_colors_one]
  by_cases hdim : img.width ≠ 16 ∨ img.height ≠ 16
  · rw [if_pos hdim]
  · rw [if_neg hdim]
    have hne : img.pixelList ≠ [] := by
      obtain ⟨e, he, _⟩ := h
      exact List.ne_nil_of_mem he
    rw [outer_loop_none d rl _ img.pixelList h img.pixelList hne]

theorem claim_C4_witness :
    (∃ e ∈ (⟨16, 16, fun x y => if x = 0 ∧ y = 0 then ⟨9, 9, 9, 200⟩ else ⟨9, 9, 9, 255⟩⟩ : Image).pixelList,
        e.2.2.a < 255) ∧
      get_average_colors_one d_abs rl_id "c4"
        ⟨16, 16, fun x y => if x = 0 ∧ y = 0 then ⟨9, 9, 9, 200⟩ else ⟨9, 9, 9, 255⟩⟩ = none :=
  ⟨by decide, claim_C4 d_abs rl_id "c4" _ (by decide)⟩

/-- C6: for an accepted (16×16, fully opaque) candidate image, the
distinctness score recorded in each pixel's entry of the `distances`
vector equals the sum of the perceptual distances from that pixel's Lab
color to the Lab color of every pixel of the image (itself included),
divided by the pixel count 256. -/
theorem claim_C6 (d : LabValue → LabValue → ℚ) (rl : Nat → Nat → Nat → LabValue)
    (img : Image) (hw : img.width = 16) (hh : img.height = 16)
    (hop : ∀ q ∈ img.pixelList, ¬ q.2.2.a < 255) :
    outer_loop d rl ((img.width * img.height : Nat) : ℚ) img.pixelList img.pixelList =
      some (img.pixelList.map (fun p =>
        (((img.pixelList.map (fun q => d (get_lab rl p.2.2) (get_lab rl q.2.2))).sum) / 256,
          p.2.2, get_lab rl p.2.2))) := by
  rw [outer_loop_complete d rl _ img.pixelList hop img.pixelList, hw, hh]
  norm_num

theorem claim_C6_witness :
    ((⟨16, 16, fun _ _ => ⟨255, 0, 0, 255⟩⟩ : Image).width = 16 ∧
        (⟨16, 16, fun _ _ => ⟨255, 0, 0, 255⟩⟩ : Image).height = 16 ∧
        ∀ q ∈ (⟨16, 16, fun _ _ => ⟨255, 0, 0, 255⟩⟩ : Image).pixelList, ¬ q.2.2.a < 255) ∧
      outer_loop d_abs rl_id
          (((⟨16, 16, fun _ _ => ⟨255, 0, 0, 255⟩⟩ : Image).width *
              (⟨16, 16, fun _ _ => ⟨255, 0, 0, 255⟩⟩ : Image).height : Nat) : ℚ)
          (⟨16, 16, fun _ _ => ⟨255, 0, 0, 255⟩⟩ : Image).pixelList
          (⟨16, 16, fun _ _ => ⟨255, 0, 0, 255⟩⟩ : Image).pixelList =
        some ((⟨16, 16, fun _ _ => ⟨255, 0, 0, 255⟩⟩ : Image).pixelList.map (fun p =>
          ((((⟨16, 16, fun _ _ => ⟨255, 0, 0, 255⟩⟩ : Image).pixelList.map
              (fun q => d_abs (get_lab rl_id p.2.2) (get_lab rl_id q.2.2))).sum) / 256,
            p.2.2, get_lab rl_id p.2.2))) :=
  ⟨⟨rfl, rfl, by decide⟩, claim_C6 d_abs rl_id _ rfl rfl (by decide)⟩

theorem adjacent_colors_differ_chain :
    ∀ l : List (Nat × Nat × Rgba), adjacent_colors_differ l = true →
      List.Chain' (fun p q : Nat × Nat × Rgba => p.2.2 ≠ q.2.2) l := by
  intro l
  induction l with
  | nil => intro _; simp
  | cons p rest ih =>
    cases rest with
    | nil => intro _; simp
    | cons q rest2 =>
      intro h
      rw [adjacent_colors_differ, Bool.and_eq_true, decide_eq_true_eq] at h
      exact List.chain'_cons.2 ⟨h.1, ih h.2⟩

theorem checker_sum_red :
    ((checker_img.pixelList.map
        (fun q => d_abs (get_lab rl_id red_px) (get_lab rl_id q.2.2))).sum /
      ((checker_img.width * checker_img.height : Nat) : ℚ)) = 255 := by decide

theorem checker_sum_blue :
    ((checker_img.pixelList.map
        (fun q => d_abs (get_lab rl_id blue_px) (get_lab rl_id q.2.2))).sum /
      ((checker_img.width * checker_img.height : Nat) : ℚ)) = 255 := by decide

/-- Full evaluation of the signature builder on `checker_img`: every
pixel scores exactly 255, so the emitted signature keeps the alternating
red/blue entries — duplicates included. -/
theorem checker_result :
    get_average_colors_one d_abs rl_id "checker" checker_img =
      some ("checker", checker_entries) := by
  have hdim : ¬ (checker_img.width ≠ 16 ∨ checker_img.height ≠ 16) := by decide
  have hop : ∀ q ∈ checker_img.pixelList, ¬ q.2.2.a < 255 := by decide
  have hcol : ∀ p ∈ checker_img.pixelList, p.2.2 = red_px ∨ p.2.2 = blue_px := by decide
  have houter := outer_loop_complete d_abs rl_id
    ((checker_img.width * checker_img.height : Nat) : ℚ) checker_img.pixelList hop
    checker_img.pixelList
  have hmap : checker_img.pixelList.map (fun p =>
      (((checker_img.pixelList.map
          (fun q => d_abs (get_lab rl_id p.2.2) (get_lab rl_id q.2.2))).sum) /
        ((checker_img.width * checker_img.height : Nat) : ℚ),
        p.2.2, get_lab rl_id p.2.2)) = checker_entries := by
    refine List.map_congr_left (fun p hp => ?_)
    rcases hcol p hp with h | h
    · rw [h, checker_sum_red]
    · rw [h, checker_sum_blue]
  have hsorted : List.Sorted score_le checker_entries := by
    refine List.pairwise_map.2 (List.pairwise_of_forall (fun x y => ?_))
    exact le_refl (255 : ℚ)
  have hsort_eq : List.insertionSort score_le checker_entries = checker_entries :=
    hsorted.insertionSort_eq
  have hchain : List.Chain' (fun u v : Pixel => u ≠ v) checker_entries := by
    refine (List.chain'_map _).2 ?_
    have hadj := adjacent_colors_differ_chain checker_img.pixelList (by decide)
    exact hadj.imp (fun _ _ hne heq => hne (congrArg (fun t : Pixel => t.2.1) heq))
  have hdedup : dedup_consec checker_entries = checker_entries :=
    dedup_consec_of_chain checker_entries hchain
  rw [get_average_colors_one, if_neg hdim, houter, hmap]
  show (match dedup_consec (List.insertionSort score_le checker_entries) with
    | [] => none
    | e :: es => some ("checker", e :: es)) = some ("checker", checker_entries)
  rw [hsort_eq, hdedup]
  cases hce : checker_entries with
  | nil =>
    exfalso
    have hnil := hce
    rw [checker_entries] at hnil
    have := List.map_eq_nil_iff.mp hnil
    exact absurd this (by decide)
  | cons e es => rfl

/-- C2 (amended): every emitted `BlockSignature` entry sequence is sorted
ascending by distinctness score and non-empty, and no two *adjacent*
entries are equal — `Vec::dedup` removes only consecutive exact
duplicates, so non-adjacent exact duplicates can survive (see the
counterexample). -/
theorem claim_C2 (d : LabValue → LabValue → ℚ) (rl : Nat → Nat → Nat → LabValue)
    (image : String) (img : Image) (bl : Block)
    (h : get_average_colors_one d rl image img = some bl) :
    List.Sorted score_le bl.2 ∧ List.Chain' (fun u v : Pixel => u ≠ v) bl.2 ∧ bl.2 ≠ [] := by
  rw [get_average_colors_one] at h
  split at h
  · exact absurd h (by simp)
  · split at h
    · exact absurd h (by simp)
    · rename_i distances heq
      split at h
      · exact absurd h (by simp)
      · rename_i e es heq2
        have hbl : bl = (image, e :: es) := by
          injection h with h2
          exact h2.symm
        subst hbl
        refine ⟨?_, ?_, by simp⟩
        · have hs : List.Sorted score_le (List.insertionSort score_le distances) :=
            List.sorted_insertionSort score_le distances
          have hsub : (e :: es).Sublist (List.insertionSort score_le distances) := by
            rw [← heq2]
            exact dedup_consec_sublist _
          exact hs.sublist hsub
        · rw [← heq2]
          exact dedup_consec_chain _

theorem claim_C2_witness :
    get_average_colors_one d_abs rl_id "checker" checker_img =
        some ("checker", checker_entries) ∧
      (List.Sorted score_le ("checker", checker_entries).2 ∧
        List.Chain' (fun u v : Pixel => u ≠ v) ("checker", checker_entries).2 ∧
        ("checker", checker_entries).2 ≠ []) :=
  ⟨checker_result,
    claim_C2 d_abs rl_id "checker" checker_img ("checker", checker_entries) checker_result⟩

/-- C2 counterexample: the signature emitted for the red/blue striped
16×16 candidate contains two entries that are equal by exact value
equality (the claim's "no two entries equal by exact value equality"
fails: dedup only removes adjacent duplicates and the stable score sort
leaves the alternating red/blue entries interleaved). -/
theorem claim_C2_counterexample :
    (get_average_colors_one d_abs rl_id "checker" checker_img).elim False
      (fun bl => ¬ bl.2.Pairwise (fun u v : Pixel => u ≠ v)) := by
  rw [checker_result]
  show ¬ checker_entries.Pairwise (fun u v : Pixel => u ≠ v)
  intro hpw
  have h02 : checker_entries.get? 0 = checker_entries.get? 2 ∧
      (checker_entries.get? 0).isSome = true := by decide
  obtain ⟨v, hv0⟩ := Option.isSome_iff_exists.mp h02.2
  have hv2 : checker_entries.get? 2 = some v := by rw [← h02.1, hv0]
  obtain ⟨hl0, hg0⟩ := List.get?_eq_some.mp hv0
  obtain ⟨hl2, hg2⟩ := List.get?_eq_some.mp hv2
  have hne := List.pairwise_iff_get.mp hpw ⟨0, hl0⟩ ⟨2, hl2⟩ (by simp [Fin.lt_def])
  rw [hg0, hg2] at hne
  exact hne rfl

/-! ## Lemmas about the closest-match resolver -/

theorem chars_le_refl : ∀ l : List Char, chars_le l l = true := by
  intro l
  induction l with
  | nil => rfl
  | cons a as ih => rw [chars_le, if_neg (lt_irrefl a), if_neg (lt_irrefl a)]; exact ih

theorem chars_le_total : ∀ l1 l2 : List Char,
    chars_le l1 l2 = true ∨ chars_le l2 l1 = true := by
  intro l1
  induction l1 with
  | nil => intro l2; left; rfl
  | cons a as ih =>
    intro l2
    cases l2 with
    | nil => right; rfl
    | cons b bs =>
      rcases lt_trichotomy a b with h | h | h
      · left; rw [chars_le, if_pos h]
      · subst h
        rw [chars_le, if_neg (lt_irrefl a), if_neg (lt_irrefl a),
          chars_le, if_neg (lt_irrefl a), if_neg (lt_irrefl a)]
        exact ih bs
      · right; rw [chars_le, if_pos h]

theorem chars_le_trans : ∀ l1 l2 l3 : List Char,
    chars_le l1 l2 = true → chars_le l2 l3 = true → chars_le l1 l3 = true := by
  intro l1
  induction l1 with
  | nil => intro l2 l3 _ _; rfl
  | cons a as ih =>
    intro l2 l3 h1 h2
    cases l2 with
    | nil => exact absurd h1 (by simp [chars_le])
    | cons b bs =>
      cases l3 with
      | nil => exact absurd h2 (by simp [chars_le])
      | cons c cs =>
        rw [chars_le] at h1 h2 ⊢
        by_cases hab : a < b
        · rw [if_pos hab] at h1
          by_cases hbc : b < c
          · rw [if_pos (lt_trans hab hbc)]
          · rw [if_neg hbc] at h2
            by_cases hcb : c < b
            · rw [if_pos hcb] at h2; exact absurd h2 (by simp)
            · have hbceq : b = c := le_antisymm (not_lt.mp hcb) (not_lt.mp hbc)
              rw [if_pos (hbceq ▸ hab)]
        · rw [if_neg hab] at h1
          by_cases hba : b < a
          · rw [if_pos hba] at h1; exact absurd h1 (by simp)
          · have haeq : a = b := le_antisymm (not_lt.mp hba) (not_lt.mp hab)
            subst haeq
            rw [if_neg (lt_irrefl a)] at h1
            by_cases hac : a < c
            · rw [if_pos hac]
            · rw [if_neg hac] at h2 ⊢
              by_cases hca : c < a
              · rw [if_pos hca] at h2; exact absurd h2 (by simp)
              · rw [if_neg hca] at h2 ⊢
                exact ih bs cs h1 h2

theorem path_le_refl (s : String) : path_le s s = true :=
  chars_le_refl s.data

theorem annotate_mem (d : LabValue → LabValue → ℚ) (lab : LabValue) :
    ∀ (blocks : List Block) (nb : List (ℚ × Block)),
      annotate d lab blocks = some nb → ∀ q ∈ nb, q.2 ∈ blocks := by
  intro blocks
  induction blocks with
  | nil =>
    intro nb h q hq
    rw [annotate] at h
    injection h with h
    subst h
    cases hq
  | cons b rest ih =>
    intro nb h q hq
    rw [annotate] at h
    cases hb : b.2 with
    | nil => rw [hb] at h; cases h
    | cons e es =>
      rw [hb] at h
      cases hrest : annotate d lab rest with
      | none => rw [hrest] at h; cases h
      | some l2 =>
        rw [hrest] at h
        injection h with h
        subst h
        rcases List.mem_cons.1 hq with h | h
        · subst h; exact List.mem_cons_self b rest
        · exact List.mem_cons_of_mem b (ih l2 hrest q h)

theorem annotate_exists (d : LabValue → LabValue → ℚ) (lab : LabValue) :
    ∀ blocks : List Block, (∀ b ∈ blocks, b.2 ≠ []) →
      ∃ nb, annotate d lab blocks = some nb ∧ nb.length = blocks.length := by
  intro blocks
  induction blocks with
  | nil => intro _; exact ⟨[], rfl, rfl⟩
  | cons b rest ih =>
    intro h
    obtain ⟨nb, hnb, hlen⟩ := ih (fun x hx => h x (List.mem_cons_of_mem b hx))
    have hb := h b (List.mem_cons_self b rest)
    cases he : b.2 with
    | nil => exact absurd he hb
    | cons e es =>
      refine ⟨(d lab e.2.2, b) :: nb, ?_, by simp [hlen]⟩
      rw [annotate, he, hnb]
      rfl

theorem gcmF_ok_of_safe (d : LabValue → LabValue → ℚ) :
    ∀ (fuel : Nat) (lab : LabValue) (blocks : List Block),
      tie_rounds_safe d fuel lab blocks = true →
      ∃ p, gcmF d fuel lab blocks = .ok p ∧ p ∈ blocks.map Prod.fst := by
  intro fuel
  induction fuel with
  | zero => intro lab blocks h; exact absurd h (by rw [tie_rounds_safe]; simp)
  | succ n ih =>
    intro lab blocks h
    rw [tie_rounds_safe] at h
    rw [gcmF]
    cases han : annotate d lab blocks with
    | none => simp only [han] at h; exact Bool.noConfusion h
    | some nb0 =>
      simp only [han] at h ⊢
      cases hsort : List.insertionSort dist_le nb0 with
      | nil => simp only [hsort] at h; exact Bool.noConfusion h
      | cons first rest =>
        simp only [hsort] at h ⊢
        have hmem_of : ∀ t : ℚ × Block,
            t ∈ (first :: rest).filter (fun item => decide (item.1 = first.1)) →
            t.2.1 ∈ blocks.map Prod.fst := by
          intro t ht
          have h1 := List.mem_filter.1 ht
          have h2 : t ∈ nb0 := by
            have h3 := h1.1
            rw [← hsort] at h3
            exact (List.perm_insertionSort dist_le nb0).subset h3
          exact List.mem_map.2 ⟨t.2, annotate_mem d lab blocks nb0 han t h2, rfl⟩
        cases hfil : (first :: rest).filter (fun item => decide (item.1 = first.1)) with
        | nil => simp only [hfil] at h; exact Bool.noConfusion h
        | cons m0 ms0 =>
          cases ms0 with
          | nil =>
            simp only [hfil] at h ⊢
            exact ⟨m0.2.1, rfl, hmem_of m0 (hfil ▸ List.mem_cons_self m0 [])⟩
          | cons m1 ms =>
            simp only [hfil] at h ⊢
            by_cases hany :
                (m0 :: m1 :: ms).any (fun block => decide (1 < block.2.2.length)) = true
            · rw [if_pos hany, Bool.and_eq_true] at h
              obtain ⟨p, hok, hp⟩ := ih lab _ h.2
              refine ⟨p, by rw [if_pos hany]; exact hok, ?_⟩
              rw [List.map_map] at hp
              obtain ⟨t, ht, rfl⟩ := List.mem_map.1 hp
              exact hmem_of t (hfil ▸ ht)
            · rw [if_neg hany]
              cases hps : List.insertionSort path_ord (m0 :: m1 :: ms) with
              | nil =>
                exfalso
                have hlen := (List.perm_insertionSort path_ord (m0 :: m1 :: ms)).length_eq
                rw [hps] at hlen
                simp at hlen
              | cons m ms2 =>
                refine ⟨m.2.1, rfl, ?_⟩
                have hm : m ∈ m0 :: m1 :: ms := by
                  have h4 : m ∈ List.insertionSort path_ord (m0 :: m1 :: ms) := by
                    rw [hps]; exact List.mem_cons_self m ms2
                  exact (List.perm_insertionSort path_ord (m0 :: m1 :: ms)).subset h4
                exact hmem_of m (hfil ▸ hm)

/-- C1 (amended): `get_closest_match` returns the file path of exactly
one palette candidate, provided that in every tie-break round the tied
candidates are either uniquely resolved or all retain entries to
recurse on (no round mixes an exhausted candidate with a multi-color
one), as captured by `tie_rounds_safe`.  Without that proviso the claim
fails: the recursion indexes `[0]` of an emptied entry vector (see the
counterexample). -/
theorem claim_C1 (d : LabValue → LabValue → ℚ) (lab : LabValue) (blocks : List Block)
    (h : tie_rounds_safe d (palette_size blocks + 1) lab blocks = true) :
    ∃ p, get_closest_match d lab blocks = .ok p ∧ p ∈ blocks.map Prod.fst :=
  gcmF_ok_of_safe d (palette_size blocks + 1) lab blocks h

theorem claim_C1_witness :
    tie_rounds_safe d_abs (palette_size safe_palette + 1) lab_red safe_palette = true ∧
      ∃ p, get_closest_match d_abs lab_red safe_palette = .ok p ∧
        p ∈ safe_palette.map Prod.fst :=
  ⟨by decide, claim_C1 d_abs lab_red safe_palette (by decide)⟩

/-- C1 counterexample: a non-empty two-candidate palette, every
signature holding at least one color entry, on which `get_closest_match`
panics: the red query ties both candidates, candidate `b` still has a
second color, so the recursion drops first entries, and candidate `a`
re-enters the next round with an empty sequence whose first entry is
then indexed. -/
theorem claim_C1_counterexample :
    cex_palette ≠ [] ∧ (∀ b ∈ cex_palette, b.2 ≠ []) ∧
      get_closest_match d_abs lab_red cex_palette = .panic := by
  refine ⟨by decide, by decide, by decide⟩

/-- C10: on an empty candidate list `get_closest_match` panics
immediately (the `new_blocks[0]` read is out of bounds) instead of
returning any path or a recoverable error value. -/
theorem claim_C10 (d : LabValue → LabValue → ℚ) (lab : LabValue) :
    get_closest_match d lab [] = .panic := rfl

/-- C3: when every candidate tied at the minimal distance has exactly
one remaining color entry, the resolver returns the lexicographically
smallest file path among the tied candidates. -/
theorem claim_C3 (d : LabValue → LabValue → ℚ) (lab : LabValue) (blocks : List Block)
    (hne : blocks ≠ []) (hee : ∀ b ∈ blocks, b.2 ≠ [])
    (h1 : ∀ t ∈ tie_set d lab blocks, t.2.2.length = 1) :
    ∃ m, m ∈ tie_set d lab blocks ∧ get_closest_match d lab blocks = .ok m.2.1 ∧
      ∀ t ∈ tie_set d lab blocks, path_le m.2.1 t.2.1 = true := by
  letI : IsTotal (ℚ × Block) path_ord :=
    ⟨fun a b => chars_le_total a.2.1.data b.2.1.data⟩
  letI : IsTrans (ℚ × Block) path_ord :=
    ⟨fun a b c hab hbc => chars_le_trans a.2.1.data b.2.1.data c.2.1.data hab hbc⟩
  obtain ⟨nb0, han, hlen⟩ := annotate_exists d lab blocks hee
  cases hsort : List.insertionSort dist_le nb0 with
  | nil =>
    exfalso
    have hpl := (List.perm_insertionSort dist_le nb0).length_eq
    rw [hsort, hlen] at hpl
    cases blocks with
    | nil => exact hne rfl
    | cons b bs => exact Nat.noConfusion hpl
  | cons first rest =>
    have hts : tie_set d lab blocks =
        (first :: rest).filter (fun item => decide (item.1 = first.1)) := by
      rw [tie_set]
      simp only [han, hsort]
    rw [get_closest_match, gcmF]
    simp only [han, hsort]
    rw [hts] at h1 ⊢
    cases hfil : (first :: rest).filter (fun item => decide (item.1 = first.1)) with
    | nil =>
      exfalso
      have hf : first ∈ (first :: rest).filter (fun item => decide (item.1 = first.1)) :=
        List.mem_filter.2 ⟨List.mem_cons_self first rest, by simp⟩
      rw [hfil] at hf
      cases hf
    | cons m0 ms0 =>
      cases ms0 with
      | nil =>
        simp only [hfil] at h1 ⊢
        refine ⟨m0, List.mem_cons_self m0 [], rfl, ?_⟩
        intro t ht
        rcases List.mem_cons.1 ht with h | h
        · subst h; exact path_le_refl t.2.1
        · cases h
      | cons m1 ms =>
        simp only [hfil] at h1 ⊢
        have hany : (m0 :: m1 :: ms).any (fun block => decide (1 < block.2.2.length)) = false := by
          rw [List.any_eq_false]
          intro x hx
          rw [h1 x hx]
          simp
        rw [if_neg (by rw [hany]; exact Bool.noConfusion)]
        cases hps : List.insertionSort path_ord (m0 :: m1 :: ms) with
        | nil =>
          exfalso
          have hpl := (List.perm_insertionSort path_ord (m0 :: m1 :: ms)).length_eq
          rw [hps] at hpl
          exact Nat.noConfusion hpl
        | cons m ms2 =>
          have hsorted := List.sorted_insertionSort path_ord (m0 :: m1 :: ms)
          rw [hps] at hsorted
          have hperm := List.perm_insertionSort path_ord (m0 :: m1 :: ms)
          rw [hps] at hperm
          refine ⟨m, hperm.subset (List.mem_cons_self m ms2), rfl, ?_⟩
          intro t ht
          rcases List.mem_cons.1 (hperm.mem_iff.2 ht) with h | h
          · rw [h]; exact path_le_refl m.2.1
          · exact List.rel_of_sorted_cons hsorted t h

theorem claim_C3_witness :
    (tie_palette ≠ [] ∧ (∀ b ∈ tie_palette, b.2 ≠ []) ∧
        ∀ t ∈ tie_set d_abs lab_red tie_palette, t.2.2.length = 1) ∧
      (∃ m, m ∈ tie_set d_abs lab_red tie_palette ∧
        get_closest_match d_abs lab_red tie_palette = .ok m.2.1 ∧
        ∀ t ∈ tie_set d_abs lab_red tie_palette, path_le m.2.1 t.2.1 = true) ∧
      get_closest_match d_abs lab_red tie_palette = .ok "a" :=
  ⟨⟨by decide, by decide, by decide⟩,
    claim_C3 d_abs lab_red tie_palette (by decide) (by decide) (by decide),
    by decide⟩

/-! ## Lemmas about the mosaic compositor -/

theorem mem_pixelList (img : Image) (e : Nat × Nat × Rgba) :
    e ∈ img.pixelList ↔
      e.1 < img.width ∧ e.2.1 < img.height ∧ e.2.2 = img.pix e.1 e.2.1 := by
  constructor
  · intro he
    rw [Image.pixelList, List.mem_flatMap] at he
    obtain ⟨y, hy, hmem⟩ := he
    rw [List.mem_map] at hmem
    obtain ⟨x, hx, heq⟩ := hmem
    subst heq
    exact ⟨List.mem_range.1 hx, List.mem_range.1 hy, rfl⟩
  · intro ⟨h1, h2, h3⟩
    rw [Image.pixelList, List.mem_flatMap]
    refine ⟨e.2.1, List.mem_range.2 h2, ?_⟩
    rw [List.mem_map]
    exact ⟨e.1, List.mem_range.2 h1, by rw [← h3]⟩

theorem pixelList_keys_nodup (img : Image) :
    (img.pixelList.map (fun e => (e.1, e.2.1))).Nodup := by
  rw [Image.pixelList, List.map_flatMap]
  simp only [List.map_map]
  rw [List.nodup_flatMap]
  constructor
  · intro y _
    refine List.Nodup.map ?_ (List.nodup_range img.width)
    intro x1 x2 hx
    exact congrArg Prod.fst hx
  · refine (List.pairwise_lt_range img.height).imp ?_
    intro y1 y2 hy
    rw [Function.onFun, List.disjoint_left]
    intro a ha1 ha2
    rw [List.mem_map] at ha1 ha2
    obtain ⟨x1, _, he1⟩ := ha1
    obtain ⟨x2, _, he2⟩ := ha2
    have : y1 = y2 := by
      have e1 := congrArg Prod.snd he1
      have e2 := congrArg Prod.snd he2
      simp at e1 e2
      omega
    omega

theorem exists_split_of_key_nodup {α κ : Type} (key : α → κ) :
    ∀ (l : List α) (e : α), e ∈ l → (l.map key).Nodup →
      ∃ l1 l2, l = l1 ++ e :: l2 ∧ (∀ u ∈ l1, key u ≠ key e) ∧
        (∀ u ∈ l2, key u ≠ key e) := by
  intro l e he hnd
  obtain ⟨l1, l2, rfl⟩ := List.append_of_mem he
  refine ⟨l1, l2, rfl, ?_, ?_⟩
  · intro u hu hk
    rw [List.map_append, List.nodup_append] at hnd
    exact hnd.2.2 (List.mem_map_of_mem key hu) (by rw [hk]; exact List.mem_cons_self _ _)
  · intro u hu hk
    rw [List.map_append, List.map_cons, List.nodup_append] at hnd
    have := List.nodup_cons.1 hnd.2.1
    exact this.1 (by rw [← hk]; exact List.mem_map_of_mem key hu)

theorem copy_fold_pix_of_not_hit (x y alpha X Y : Nat) :
    ∀ (l : List (Nat × Nat × Rgba)) (c : Canvas),
      (∀ sp ∈ l, ¬ (X = x * 16 + sp.1 ∧ Y = y * 16 + sp.2.1)) →
      (l.foldl (fun acc sp => put_pixel acc (x * 16 + sp.1) (y * 16 + sp.2.1)
          ⟨sp.2.2.r, sp.2.2.g, sp.2.2.b, alpha⟩) c).pix X Y = c.pix X Y := by
  intro l
  induction l with
  | nil => intro c _; rfl
  | cons sp rest ih =>
    intro c h
    rw [List.foldl_cons, ih _ (fun u hu => h u (List.mem_cons_of_mem sp hu))]
    show (if X = x * 16 + sp.1 ∧ Y = y * 16 + sp.2.1
      then (⟨sp.2.2.r, sp.2.2.g, sp.2.2.b, alpha⟩ : Rgba) else c.pix X Y) = c.pix X Y
    exact if_neg (h sp (List.mem_cons_self sp rest))

theorem copy_block_pix_of_not_hit (c : Canvas) (x y alpha X Y : Nat) (bimg : Image)
    (h : ∀ sp ∈ bimg.pixelList, ¬ (X = x * 16 + sp.1 ∧ Y = y * 16 + sp.2.1)) :
    (copy_block c x y alpha bimg).pix X Y = c.pix X Y :=
  copy_fold_pix_of_not_hit x y alpha X Y bimg.pixelList c h

theorem copy_block_pix_hit (c : Canvas) (x y alpha : Nat) (bimg : Image) (i j : Nat)
    (hi : i < bimg.width) (hj : j < bimg.height) :
    (copy_block c x y alpha bimg).pix (x * 16 + i) (y * 16 + j) =
      ⟨(bimg.pix i j).r, (bimg.pix i j).g, (bimg.pix i j).b, alpha⟩ := by
  have he : ((i, j, bimg.pix i j) : Nat × Nat × Rgba) ∈ bimg.pixelList :=
    (mem_pixelList bimg _).2 ⟨hi, hj, rfl⟩
  obtain ⟨l1, l2, hsplit, _, h2⟩ :=
    exists_split_of_key_nodup (fun e => (e.1, e.2.1)) bimg.pixelList _ he
      (pixelList_keys_nodup bimg)
  rw [copy_block, hsplit, List.foldl_append, List.foldl_cons]
  have hmiss : ∀ sp ∈ l2, ¬ (x * 16 + i = x * 16 + sp.1 ∧ y * 16 + j = y * 16 + sp.2.1) := by
    intro sp hsp hcol
    apply h2 sp hsp
    have hx : sp.1 = i := by omega
    have hy : sp.2.1 = j := by omega
    rw [hx, hy]
  rw [copy_fold_pix_of_not_hit x y alpha _ _ l2 _ hmiss]
  show (if x * 16 + i = x * 16 + i ∧ y * 16 + j = y * 16 + j
    then (⟨(bimg.pix i j).r, (bimg.pix i j).g, (bimg.pix i j).b, alpha⟩ : Rgba)
    else _) = _
  rw [if_pos ⟨rfl, rfl⟩]

theorem copy_block_width (c : Canvas) (x y alpha : Nat) (bimg : Image) :
    (copy_block c x y alpha bimg).width = c.width ∧
      (copy_block c x y alpha bimg).height = c.height := by
  rw [copy_block]
  generalize bimg.pixelList = l
  induction l generalizing c with
  | nil => exact ⟨rfl, rfl⟩
  | cons sp rest ih =>
    rw [List.foldl_cons]
    exact ih (put_pixel c _ _ _)

theorem blockify_loop_dims (d : LabValue → LabValue → ℚ) (rl : Nat → Nat → Nat → LabValue)
    (load : String → Image) (blocks : List Block) :
    ∀ (l : List (Nat × Nat × Rgba)) (c c' : Canvas),
      blockify_loop d rl load blocks l c = some c' →
      c'.width = c.width ∧ c'.height = c.height := by
  intro l
  induction l with
  | nil =>
    intro c c' h
    injection h with h
    subst h
    exact ⟨rfl, rfl⟩
  | cons p rest ih =>
    intro c c' h
    rw [blockify_loop] at h
    by_cases ha : p.2.2.a = 0
    · rw [if_pos ha] at h
      exact ih c c' h
    · rw [if_neg ha] at h
      cases hg : get_closest_match d (get_lab rl p.2.2) blocks with
      | ok sel =>
        simp only [hg] at h
        have hd := ih _ c' h
        have hcb := copy_block_width c p.1 p.2.1 p.2.2.a (load sel)
        exact ⟨hd.1.trans hcb.1, hd.2.trans hcb.2⟩
      | panic => simp only [hg] at h; exact Option.noConfusion h
      | fuelOut => simp only [hg] at h; exact Option.noConfusion h

theorem blockify_loop_append (d : LabValue → LabValue → ℚ) (rl : Nat → Nat → Nat → LabValue)
    (load : String → Image) (blocks : List Block) :
    ∀ (l1 l2 : List (Nat × Nat × Rgba)) (c : Canvas),
      blockify_loop d rl load blocks (l1 ++ l2) c =
        (blockify_loop d rl load blocks l1 c).bind (blockify_loop d rl load blocks l2) := by
  intro l1
  induction l1 with
  | nil => intro l2 c; rfl
  | cons p rest ih =>
    intro l2 c
    rw [List.cons_append, blockify_loop]
    by_cases ha : p.2.2.a = 0
    · rw [if_pos ha, ih l2 c, blockify_loop, if_pos ha]
    · rw [if_neg ha]
      cases hg : get_closest_match d (get_lab rl p.2.2) blocks with
      | ok sel =>
        simp only [hg]
        rw [ih l2 _, blockify_loop, if_neg ha]
        simp only [hg]
      | panic =>
        simp only [hg]
        rw [blockify_loop, if_neg ha]
        simp only [hg]
        rfl
      | fuelOut =>
        simp only [hg]
        rw [blockify_loop, if_neg ha]
        simp only [hg]
        rfl

theorem blockify_loop_pix (d : LabValue → LabValue → ℚ) (rl : Nat → Nat → Nat → LabValue)
    (load : String → Image) (blocks : List Block) (X Y : Nat)
    (hload : ∀ s, (load s).width = 16 ∧ (load s).height = 16) :
    ∀ (l : List (Nat × Nat × Rgba)) (c c' : Canvas),
      blockify_loop d rl load blocks l c = some c' →
      (∀ e ∈ l, e.2.2.a = 0 ∨
        ∀ i j, i < 16 → j < 16 → ¬ (X = e.1 * 16 + i ∧ Y = e.2.1 * 16 + j)) →
      c'.pix X Y = c.pix X Y := by
  intro l
  induction l with
  | nil =>
    intro c c' h _
    injection h with h
    subst h
    rfl
  | cons e rest ih =>
    intro c c' h hall
    rw [blockify_loop] at h
    by_cases ha : e.2.2.a = 0
    · rw [if_pos ha] at h
      exact ih c c' h (fun u hu => hall u (List.mem_cons_of_mem e hu))
    · rw [if_neg ha] at h
      cases hg : get_closest_match d (get_lab rl e.2.2) blocks with
      | ok sel =>
        simp only [hg] at h
        rw [ih _ c' h (fun u hu => hall u (List.mem_cons_of_mem e hu))]
        apply copy_block_pix_of_not_hit
        intro sp hsp hcol
        have hb := (mem_pixelList (load sel) sp).1 hsp
        rcases hall e (List.mem_cons_self e rest) with h0 | hmiss
        · exact ha h0
        · exact hmiss sp.1 sp.2.1 ((hload sel).1 ▸ hb.1) ((hload sel).2 ▸ hb.2.1) hcol
      | panic => simp only [hg] at h; exact Option.noConfusion h
      | fuelOut => simp only [hg] at h; exact Option.noConfusion h

/-- C7: a fully transparent source pixel is skipped by the compositor,
so its whole 16×16 destination region keeps the initial fully
transparent RGBA (0,0,0,0) of the canvas. -/
theorem claim_C7 (d : LabValue → LabValue → ℚ) (rl : Nat → Nat → Nat → LabValue)
    (load : String → Image) (blocks : List Block) (img : Image) (canvas : Canvas)
    (x y : Nat) (hload : ∀ s, (load s).width = 16 ∧ (load s).height = 16)
    (hres : blockify_image d rl load blocks img = some canvas)
    (hx : x < img.width) (hy : y < img.height) (ha : (img.pix x y).a = 0) :
    ∀ i j, i < 16 → j < 16 → canvas.pix (x * 16 + i) (y * 16 + j) = ⟨0, 0, 0, 0⟩ := by
  intro i j hi hj
  rw [blockify_image] at hres
  have hpres := blockify_loop_pix d rl load blocks (x * 16 + i) (y * 16 + j) hload
    img.pixelList _ canvas hres ?_
  · rw [hpres]
  · intro e he
    have hb := (mem_pixelList img e).1 he
    by_cases hxy : e.1 = x ∧ e.2.1 = y
    · left
      rw [hb.2.2, hxy.1, hxy.2, ha]
    · right
      intro u v hu hv hcol
      apply hxy
      constructor <;> omega

theorem claim_C7_witness :
    (blockify_image d_abs rl_id load_blue tie_palette target2).elim False
      (fun cv => cv.pix (0 * 16 + 3) (0 * 16 + 5) = ⟨0, 0, 0, 0⟩) := by
  have hIs : (blockify_image d_abs rl_id load_blue tie_palette target2).isSome = true := by
    decide
  cases hres : blockify_image d_abs rl_id load_blue tie_palette target2 with
  | none => rw [hres] at hIs; exact Bool.noConfusion hIs
  | some cv =>
    show cv.pix (0 * 16 + 3) (0 * 16 + 5) = ⟨0, 0, 0, 0⟩
    exact claim_C7 d_abs rl_id load_blue tie_palette target2 cv 0 0
      (fun s => ⟨rfl, rfl⟩) hres (by decide) (by decide) (by decide) 3 5
      (by decide) (by decide)

/-- C8: an opaque source pixel (alpha `a > 0`) resolved to block `sel`
fills its 16×16 destination region with the RGB of the corresponding
block pixels while every destination alpha is overridden with `a` — the
block supplies color, the source supplies transparency. -/
theorem claim_C8 (d : LabValue → LabValue → ℚ) (rl : Nat → Nat → Nat → LabValue)
    (load : String → Image) (blocks : List Block) (img : Image) (canvas : Canvas)
    (x y a : Nat) (sel : String)
    (hload : ∀ s, (load s).width = 16 ∧ (load s).height = 16)
    (hres : blockify_image d rl load blocks img = some canvas)
    (hx : x < img.width) (hy : y < img.height)
    (ha : (img.pix x y).a = a) (ha0 : a ≠ 0)
    (hsel : get_closest_match d (get_lab rl (img.pix x y)) blocks = .ok sel) :
    ∀ i j, i < 16 → j < 16 →
      canvas.pix (x * 16 + i) (y * 16 + j) =
        ⟨((load sel).pix i j).r, ((load sel).pix i j).g, ((load sel).pix i j).b, a⟩ := by
  intro i j hi hj
  rw [blockify_image] at hres
  have he : ((x, y, img.pix x y) : Nat × Nat × Rgba) ∈ img.pixelList :=
    (mem_pixelList img _).2 ⟨hx, hy, rfl⟩
  obtain ⟨l1, l2, hsplit, hk1, hk2⟩ :=
    exists_split_of_key_nodup (fun e => (e.1, e.2.1)) img.pixelList _ he
      (pixelList_keys_nodup img)
  rw [hsplit, blockify_loop_append] at hres
  cases h1 : blockify_loop d rl load blocks l1
      ⟨img.width * 16, img.height * 16, fun _ _ => ⟨0, 0, 0, 0⟩⟩ with
  | none =>
    rw [h1] at hres
    exact Option.noConfusion hres
  | some c1 =>
    rw [h1] at hres
    rw [Option.some_bind, blockify_loop] at hres
    rw [if_neg (by rw [ha]; exact ha0)] at hres
    simp only [hsel] at hres
    have hpres := blockify_loop_pix d rl load blocks (x * 16 + i) (y * 16 + j) hload
      l2 _ canvas hres ?_
    · rw [hpres]
      rw [copy_block_pix_hit c1 x y _ (load sel) i j
        ((hload sel).1.symm ▸ hi) ((hload sel).2.symm ▸ hj), ha]
    · intro e heL2
      right
      intro u v hu hv hcol
      apply hk2 e heL2
      have hex : e.1 = x := by omega
      have hey : e.2.1 = y := by omega
      rw [hex, hey]

theorem claim_C8_witness :
    (blockify_image d_abs rl_id load_blue tie_palette target2).elim False
      (fun cv => cv.pix (1 * 16 + 2) (0 * 16 + 4) = ⟨0, 0, 255, 200⟩) := by
  have hIs : (blockify_image d_abs rl_id load_blue tie_palette target2).isSome = true := by
    decide
  cases hres : blockify_image d_abs rl_id load_blue tie_palette target2 with
  | none => rw [hres] at hIs; exact Bool.noConfusion hIs
  | some cv =>
    show cv.pix (1 * 16 + 2) (0 * 16 + 4) = ⟨0, 0, 255, 200⟩
    exact claim_C8 d_abs rl_id load_blue tie_palette target2 cv 1 0 200 "a"
      (fun s => ⟨rfl, rfl⟩) hres (by decide) (by decide) (by decide) (by decide)
      (by decide) 2 4 (by decide) (by decide)

/-- C9: after one target image of dimensions `(w, h)` is composited, the
`RunningPixelCounter` is incremented by `(w·16)·(h·16)`, which equals
the exact number of pixels of the destination canvas written for that
image. -/
theorem claim_C9 (d : LabValue → LabValue → ℚ) (rl : Nat → Nat → Nat → LabValue)
    (load : String → Image) (blocks : List Block) (img : Image) (canvas : Canvas)
    (p : Nat) (hres : blockify_image d rl load blocks img = some canvas) :
    counter_after p img.width img.height = p + canvas.width * canvas.height := by
  rw [blockify_image] at hres
  have hd := blockify_loop_dims d rl load blocks img.pixelList _ canvas hres
  rw [counter_after, hd.1, hd.2]

theorem claim_C9_witness :
    (blockify_image d_abs rl_id load_blue tie_palette target2).elim False
      (fun cv => counter_after 5 target2.width target2.height =
        5 + cv.width * cv.height) := by
  have hIs : (blockify_image d_abs rl_id load_blue tie_palette target2).isSome = true := by
    decide
  cases hres : blockify_image d_abs rl_id load_blue tie_palette target2 with
  | none => rw [hres] at hIs; exact Bool.noConfusion hIs
  | some cv =>
    show counter_after 5 target2.width target2.height = 5 + cv.width * cv.height
    exact claim_C9 d_abs rl_id load_blue tie_palette target2 cv 5 hres

/-! ## The fuel supplied by `get_closest_match` is always sufficient -/

theorem annotate_snd_ne (d : LabValue → LabValue → ℚ) (lab : LabValue) :
    ∀ (blocks : List Block) (nb : List (ℚ × Block)),
      annotate d lab blocks = some nb → ∀ q ∈ nb, q.2.2 ≠ [] := by
  intro blocks
  induction blocks with
  | nil =>
    intro nb h q hq
    rw [annotate] at h
    injection h with h
    subst h
    cases hq
  | cons b rest ih =>
    intro nb h q hq
    rw [annotate] at h
    cases hb : b.2 with
    | nil => rw [hb] at h; cases h
    | cons e es =>
      rw [hb] at h
      cases hrest : annotate d lab rest with
      | none => rw [hrest] at h; cases h
      | some l2 =>
        rw [hrest] at h
        injection h with h
        subst h
        rcases List.mem_cons.1 hq with h | h
        · subst h
          show b.2 ≠ []
          rw [hb]
          exact List.cons_ne_nil e es
        · exact ih l2 hrest q h

theorem annotate_lengths (d : LabValue → LabValue → ℚ) (lab : LabValue) :
    ∀ (blocks : List Block) (nb : List (ℚ × Block)),
      annotate d lab blocks = some nb →
      nb.map (fun q => q.2.2.length) = blocks.map (fun b => b.2.length) := by
  intro blocks
  induction blocks with
  | nil =>
    intro nb h
    injection h with h
    subst h
    rfl
  | cons b rest ih =>
    intro nb h
    rw [annotate] at h
    cases hb : b.2 with
    | nil => rw [hb] at h; cases h
    | cons e es =>
      rw [hb] at h
      cases hrest : annotate d lab rest with
      | none => rw [hrest] at h; cases h
      | some l2 =>
        rw [hrest] at h
        injection h with h
        subst h
        rw [List.map_cons, List.map_cons, ih l2 hrest]

theorem sum_map_filter_le {α : Type} (f : α → Nat) (p : α → Bool) :
    ∀ l : List α, ((l.filter p).map f).sum ≤ (l.map f).sum := by
  intro l
  induction l with
  | nil => exact le_refl 0
  | cons a rest ih =>
    rw [List.filter_cons]
    by_cases hp : p a = true
    · rw [if_pos hp, List.map_cons, List.map_cons, List.sum_cons, List.sum_cons]
      exact Nat.add_le_add_left ih _
    · rw [if_neg hp, List.map_cons, List.sum_cons]
      exact le_trans ih (Nat.le_add_left _ _)

theorem sum_map_sub_one_lt {α : Type} (f : α → Nat) :
    ∀ l : List α, l ≠ [] → (∀ x ∈ l, 0 < f x) →
      (l.map (fun x => f x - 1)).sum < (l.map f).sum := by
  intro l
  induction l with
  | nil => intro h _; exact absurd rfl h
  | cons a rest ih =>
    intro _ hpos
    rw [List.map_cons, List.map_cons, List.sum_cons, List.sum_cons]
    have ha : f a - 1 < f a := Nat.sub_lt (hpos a (List.mem_cons_self a rest)) Nat.one_pos
    have hrest : (rest.map (fun x => f x - 1)).sum ≤ (rest.map f).sum :=
      List.sum_le_sum (fun x _ => Nat.sub_le _ _)
    exact Nat.add_lt_add_of_lt_of_le ha hrest

theorem gcmF_no_fuelOut (d : LabValue → LabValue → ℚ) :
    ∀ (fuel : Nat) (lab : LabValue) (blocks : List Block),
      palette_size blocks < fuel → gcmF d fuel lab blocks ≠ .fuelOut := by
  intro fuel
  induction fuel with
  | zero => intro lab blocks h; exact absurd h (Nat.not_lt_zero _)
  | succ n ih =>
    intro lab blocks hfuel
    rw [gcmF]
    cases han : annotate d lab blocks with
    | none => simp only [han]; exact fun hc => GCMResult.noConfusion hc
    | some nb0 =>
      simp only [han]
      cases hsort : List.insertionSort dist_le nb0 with
      | nil => simp only [hsort]; exact fun hc => GCMResult.noConfusion hc
      | cons first rest =>
        simp only [hsort]
        cases hfil : (first :: rest).filter (fun item => decide (item.1 = first.1)) with
        | nil => simp only [hfil]; exact fun hc => GCMResult.noConfusion hc
        | cons m0 ms0 =>
          cases ms0 with
          | nil => simp only [hfil]; exact fun hc => GCMResult.noConfusion hc
          | cons m1 ms =>
            simp only [hfil]
            by_cases hany :
                (m0 :: m1 :: ms).any (fun block => decide (1 < block.2.2.length)) = true
            · rw [if_pos hany]
              have hmem : ∀ q ∈ m0 :: m1 :: ms, q ∈ nb0 := by
                intro q hq
                have hq2 : q ∈ first :: rest := by
                  have := hfil ▸ hq
                  exact (List.mem_filter.1 this).1
                rw [← hsort] at hq2
                exact (List.perm_insertionSort dist_le nb0).subset hq2
              have hpos : ∀ q ∈ m0 :: m1 :: ms, 0 < q.2.2.length := by
                intro q hq
                exact List.length_pos.2 (annotate_snd_ne d lab blocks nb0 han q (hmem q hq))
              have h1 : palette_size
                  ((m0 :: m1 :: ms).map (fun block => (block.2.1, block.2.2.drop 1))) =
                  ((m0 :: m1 :: ms).map (fun b => b.2.2.length - 1)).sum := by
                rw [palette_size, List.map_map]
                congr 1
                refine List.map_congr_left (fun b _ => ?_)
                simp
              have h2 : ((m0 :: m1 :: ms).map (fun b => b.2.2.length - 1)).sum <
                  ((m0 :: m1 :: ms).map (fun b => b.2.2.length)).sum :=
                sum_map_sub_one_lt (fun b => b.2.2.length) (m0 :: m1 :: ms)
                  (List.cons_ne_nil m0 (m1 :: ms)) hpos
              have h3 : ((m0 :: m1 :: ms).map (fun b => b.2.2.length)).sum ≤
                  ((first :: rest).map (fun q => q.2.2.length)).sum := by
                rw [← hfil]
                exact sum_map_filter_le _ _ _
              have h4 : ((first :: rest).map (fun q => q.2.2.length)).sum =
                  (nb0.map (fun q => q.2.2.length)).sum := by
                have hp := (List.perm_insertionSort dist_le nb0).map (fun q => q.2.2.length)
                rw [hsort] at hp
                exact hp.sum_eq
              have h5 : (nb0.map (fun q => q.2.2.length)).sum = palette_size blocks := by
                rw [palette_size, annotate_lengths d lab blocks nb0 han]
              refine ih lab _ ?_
              rw [h1]
              have h6 : palette_size blocks ≤ n := Nat.lt_succ_iff.mp hfuel
              exact lt_of_lt_of_le h2 (le_trans h3 (le_trans (le_of_eq (h4.trans h5)) h6))
            · rw [if_neg hany]
              cases hps : List.insertionSort path_ord (m0 :: m1 :: ms) with
              | nil => simp only [hps]; exact fun hc => GCMResult.noConfusion hc
              | cons m ms2 => simp only [hps]; exact fun hc => GCMResult.noConfusion hc
